import Mathlib

/-!
Verification of the MacRuby symbol-interning subsystem (`symbol.c`).

The embedding models symbol texts as lists of UTF-16 code units (`Text`),
the two CoreFoundation dictionaries (`sym_id`, `id_str`) as association
lists with most-recent-first lookup (`CFDictionarySetValue` overwrites a
key, which an association-list cons models for lookups), and the global
`last_id` counter as a field of an explicit state record.  The content
hash (`rb_str_hash`, supplied by the string library) is a parameter
`hash : Text → Nat`.

The ID bit layout (`ID_SCOPE_SHIFT`, the `ID_*` scope tags,
`is_attrset_id`, `is_local_id`, `rb_id_attrset`) lives in headers that are
not part of the sources; those constants are modelled from the spec
(low-order scope tag, high-order sequence number) using the conventional
byte values, with `% 8` / `/ 8` arithmetic replacing the bit masking.
-/

namespace MacRubySymbol

/-- A symbol text: the sequence of UTF-16 code units of the name
(`rb_str_get_uchars` output). -/
abbrev Text := List Nat

/-! ### Character classification (C locale, as used by `symbol.c`) -/

/-- `isascii(c)`. -/
def isascii (c : Nat) : Bool := c < 128

/-- `isdigit(c)` in the C locale. -/
def isdigitc (c : Nat) : Bool := 48 ≤ c && c ≤ 57

/-- `isupper(c)` / `iswupper(c)` in the C locale (ASCII uppercase). -/
def isupperc (c : Nat) : Bool := 65 ≤ c && c ≤ 90

/-- `isalpha(c)` in the C locale. -/
def isalphac (c : Nat) : Bool := (65 ≤ c && c ≤ 90) || (97 ≤ c && c ≤ 122)

/-- `isalnum(c)` in the C locale. -/
def isalnumc (c : Nat) : Bool := isdigitc c || isalphac c

/-- `isprint(c)` in the C locale (space through tilde). -/
def isprintc (c : Nat) : Bool := 32 ≤ c && c ≤ 126

/-- `is_identchar` from `symbol.c`: ASCII alphanumeric, underscore, or any
non-ASCII code unit. -/
def is_identchar (c : Nat) : Bool := isalnumc c || c == 95 || !isascii c

/-! ### ID scope tags

Modelled from the spec: a `SymbolID` is a low-order scope tag together
with a high-order sequence number (`id = tag | (seq << ID_SCOPE_SHIFT)`);
the numeric tag values come from the conventional `id.h` layout that
`symbol.c` includes but that is not among the sources. -/

def ID_SCOPE_SHIFT : Nat := 3
def ID_SCOPE_MASK : Nat := 7
def ID_LOCAL : Nat := 0
def ID_INSTANCE : Nat := 1
def ID_GLOBAL : Nat := 3
def ID_ATTRSET : Nat := 4
def ID_CONST : Nat := 5
def ID_CLASS : Nat := 6
def ID_JUNK : Nat := 7

/-- `is_attrset_id(id)`: the scope-tag bits equal `ID_ATTRSET`. -/
def is_attrset_id (id : Nat) : Bool := id % 8 == ID_ATTRSET

/-- `is_local_id(id)`: the scope-tag bits equal `ID_LOCAL`. -/
def is_local_id (id : Nat) : Bool := id % 8 == ID_LOCAL

/-- `rb_id_attrset(id) = (id & ~ID_SCOPE_MASK) | ID_ATTRSET`. -/
def rb_id_attrset (id : Nat) : Nat := id - id % 8 + ID_ATTRSET

/-! ### The interning state -/

/-- `rb_sym_t`: the immutable interned record (class pointer omitted). -/
structure Sym where
  str : Text
  id : Nat
deriving DecidableEq, Repr

/-- The process-wide state of `symbol.c`: the two dictionaries and the
dynamic sequence counter `last_id`. -/
structure SymState where
  sym_id : List (Nat × Nat)
  id_str : List (Nat × Sym)
  last_id : Nat
deriving DecidableEq, Repr

/-- Association-list lookup; the most recently set binding wins, matching
`CFDictionaryGetValue` after `CFDictionarySetValue` overwrites. -/
def lookupD {α : Type} : List (Nat × α) → Nat → Option α
  | [], _ => none
  | (k, v) :: rest, key => if key = k then some v else lookupD rest key

/-- The identifier scan of `rb_intern_str` (lines 105–114): from the
position after the prefix, the scan advances only if the first remaining
character is not a digit, then consumes identifier characters; any
remaining character forces `ID_JUNK`.  Returns `true` exactly when the
scan leaves the category overridden to junk. -/
def remainder_is_junk : Text → Bool
  | [] => false
  | c :: rest => isdigitc c || !((c :: rest).all is_identchar)

/-- The `id_register` tail of `rb_intern_str`: allocate the record and set
both dictionary directions. -/
def registerSym (hash : Text → Nat) (str : Text) (id : Nat) (st : SymState) :
    Nat × SymState :=
  (id, { st with
          sym_id := (hash str, id) :: st.sym_id,
          id_str := (id, ⟨str, id⟩) :: st.id_str })

/-- The `new_id` tail of `rb_intern_str`:
`id |= ++last_id << ID_SCOPE_SHIFT`, then `id_register`. -/
def newIdRegister (hash : Text → Nat) (str : Text) (tag : Nat) (st : SymState) :
    Nat × SymState :=
  registerSym hash str (tag + 8 * (st.last_id + 1))
    { st with last_id := st.last_id + 1 }

/-- `rb_intern_str`, with a structural fuel argument so the recursion on
the attribute-assignment prefix (`rb_str_substr(str, 0, chars_len - 1)`,
i.e. `dropLast`) is structural; `rb_intern_str` below instantiates
`fuel = str.length + 1`, which every recursive call maintains, so the
fuel-exhausted branch is never reached. -/
def internAux (hash : Text → Nat) : Nat → Text → SymState → Nat × SymState
  | 0, _, st => (0, st)
  | fuel + 1, str, st =>
    match lookupD st.sym_id (hash str) with
    | some id => (id, st)
    | none =>
      match str with
      | [] => newIdRegister hash [] 0 st
      | c :: rest =>
        if c = 36 then
          -- '$': id = ID_GLOBAL; goto new_id (the identifier scan is skipped)
          newIdRegister hash (c :: rest) ID_GLOBAL st
        else if c = 64 then
          -- '@' / '@@': chars_len > 1 && chars[1] == '@' selects Class
          if rest.head? = some 64 then
            newIdRegister hash (c :: rest)
              (if remainder_is_junk rest.tail then ID_JUNK else ID_CLASS) st
          else
            newIdRegister hash (c :: rest)
              (if remainder_is_junk rest then ID_JUNK else ID_INSTANCE) st
        else
          if rest ≠ [] ∧ (c :: rest).getLast? = some 61 then
            -- attribute assignment: intern the prefix without the trailing '='
            let r := internAux hash fuel ((c :: rest).dropLast) st
            if is_attrset_id r.1 then
              newIdRegister hash (c :: rest)
                (if remainder_is_junk (c :: rest) then ID_JUNK else ID_ATTRSET)
                r.2
            else
              registerSym hash (c :: rest) (rb_id_attrset r.1) r.2
          else
            newIdRegister hash (c :: rest)
              (if remainder_is_junk (c :: rest) then ID_JUNK
               else if isupperc c then ID_CONST else ID_LOCAL) st

/-- `rb_intern_str`. -/
def rb_intern_str (hash : Text → Nat) (str : Text) (st : SymState) :
    Nat × SymState :=
  internAux hash (str.length + 1) str st

/-- `rb_id2str`.  The derivation loop tries the `ID_LOCAL` variant of the
queried id and then the `ID_CONST` variant (the recursive `rb_id2str`
calls it makes are on non-attrset ids, for which `rb_id2str` is a plain
dictionary lookup, so they are inlined as lookups); on success it interns
`base_text ++ "="` and retries the direct lookup once.  The derivation
path mutates the state, which is returned alongside the result. -/
def rb_id2str (hash : Text → Nat) (id : Nat) (st : SymState) :
    Option Sym × SymState :=
  match lookupD st.id_str id with
  | some sym => (some sym, st)
  | none =>
    if is_attrset_id id then
      match lookupD st.id_str (id - id % 8 + ID_LOCAL) with
      | some base =>
        match rb_intern_str hash (base.str ++ [61]) st with
        | (_, st') =>
          match lookupD st'.id_str id with
          | some sym => (some sym, st')
          | none => (none, st')
      | none =>
        match lookupD st.id_str (id - id % 8 + ID_CONST) with
        | some base =>
          match rb_intern_str hash (base.str ++ [61]) st with
          | (_, st') =>
            match lookupD st'.id_str id with
            | some sym => (some sym, st')
            | none => (none, st')
        | none => (none, st)
    else (none, st)

/-- The pre-registration loop of `Init_PreSymbol` over `rb_op_tbl`
(a compile-time table of `(token, name)` pairs from the parser headers,
not among the sources). -/
def op_tbl_register (hash : Text → Nat) :
    List (Nat × Text) → SymState → SymState
  | [], st => st
  | (tok, name) :: rest, st =>
    op_tbl_register hash rest
      { st with
          sym_id := (hash name, tok) :: st.sym_id,
          id_str := (tok, ⟨name, tok⟩) :: st.id_str }

/-- `Init_PreSymbol`: fresh dictionaries, `last_id = 1000`, and the
operator table pre-registered with its reserved ids. -/
def Init_PreSymbol (hash : Text → Nat) (tbl : List (Nat × Text)) : SymState :=
  op_tbl_register hash tbl { sym_id := [], id_str := [], last_id := 1000 }

/-- A sequence of dynamic `rb_intern_str` calls, threading the state. -/
def internMany (hash : Text → Nat) (ts : List Text) (st : SymState) : SymState :=
  ts.foldl (fun s t => (rb_intern_str hash t s).2) st

/-! ### The literal escaper -/

/-- `is_special_global_name` from `symbol.c`. -/
def is_special_global_name (t : Text) : Bool :=
  match t with
  | [] => false
  | c :: rest =>
    if c = 126 || c = 42 || c = 36 || c = 63 || c = 33 || c = 64 || c = 47 ||
        c = 92 || c = 59 || c = 44 || c = 46 || c = 61 || c = 58 || c = 60 ||
        c = 62 || c = 34 || c = 38 || c = 96 || c = 39 || c = 43 || c = 48 then
      rest.isEmpty
    else if c = 45 then
      match rest with
      | [] => true
      | d :: rest2 => is_identchar d && rest2.isEmpty
    else if isdigitc c then rest.all isdigitc
    else false

/-- The `id:` label of `sym_should_be_escaped`: reject unless the current
character starts an identifier, consume identifier characters, allow one
`!`/`?`/`=` suffix for lowercase-led names, and escape when characters
remain. -/
def escIdTail (localid : Bool) (s : Text) : Bool :=
  match s with
  | [] => true
  | c :: _ =>
    if c != 95 && !isalphac c && isascii c then true
    else
      let r1 := s.dropWhile fun x => is_identchar x
      let r2 := if localid then
          match r1 with
          | d :: r' => if d = 33 || d = 63 || d = 61 then r' else r1
          | [] => r1
        else r1
      !r2.isEmpty

/-- `sym_should_be_escaped`, as a pure function of the symbol's text. -/
def sym_should_be_escaped (t : Text) : Bool :=
  match t with
  | [] => true
  | c :: rest =>
    if (c :: rest).any fun x => !isprintc x then true
    else if c = 0 then true
    else if c = 36 then  -- '$'
      if !rest.isEmpty && is_special_global_name rest then false
      else escIdTail false rest
    else if c = 64 then  -- '@' / '@@'
      match rest with
      | 64 :: rest2 => escIdTail false rest2
      | _ => escIdTail false rest
    else if c = 60 then  -- '<' then '<' or '=' (optionally '>')
      let r : Text := match rest with
        | 60 :: r2 => r2
        | 61 :: 62 :: r3 => r3
        | 61 :: r2 => r2
        | _ => rest
      !r.isEmpty
    else if c = 62 then  -- '>' then '>' or '='
      let r : Text := match rest with
        | 62 :: r2 => r2
        | 61 :: r2 => r2
        | _ => rest
      !r.isEmpty
    else if c = 61 then  -- '=' then '~', or '=' (optionally '=')
      match rest with
      | [] => true
      | 126 :: r2 => !r2.isEmpty
      | 61 :: 61 :: r3 => !r3.isEmpty
      | 61 :: r2 => !r2.isEmpty
      | _ => true
    else if c = 42 then  -- '*' optionally '*'
      let r : Text := match rest with
        | 42 :: r2 => r2
        | _ => rest
      !r.isEmpty
    else if c = 43 || c = 45 then  -- '+' / '-' optionally '@'
      let r : Text := match rest with
        | 64 :: r2 => r2
        | _ => rest
      !r.isEmpty
    else if c = 124 || c = 94 || c = 38 || c = 47 || c = 37 || c = 126 ||
        c = 96 then
      !rest.isEmpty
    else if c = 91 then  -- '[' (the bounds check precedes an unguarded pos++)
      match rest with
      | [] => false
      | d :: r2 =>
        if d ≠ 93 then true
        else match r2 with
          | 61 :: r3 => !r3.isEmpty
          | _ => !r2.isEmpty
    else if c = 33 then  -- '!' then optionally '=' or '~'
      match rest with
      | [] => false
      | 61 :: r2 => !r2.isEmpty
      | 126 :: r2 => !r2.isEmpty
      | _ => true
    else
      escIdTail (!isupperc c) (c :: rest)

/-- Modelled from the spec: the string library's `quote` collaborator
(`rb_str_inspect`, not among the sources) wraps the text in double quotes,
backslash-escaping quote and backslash characters. -/
def quoteStr (t : Text) : Text :=
  34 :: t.foldr (fun c acc =>
    (if c = 34 || c = 92 then [92, c] else [c]) ++ acc) [34]

/-- `display(text)`: the body of `rsym_inspect` — a leading colon, then
the text either bare or quoted according to `sym_should_be_escaped`. -/
def display (t : Text) : Text :=
  58 :: (if sym_should_be_escaped t then quoteStr t else t)

/-- `rsym_inspect`, on the interned record. -/
def rsym_inspect (s : Sym) : Text := display s.str

/-! ### Invariants, table constraints, and concrete witness material -/

/-- A concrete injective content hash, used to instantiate the
`rb_str_hash` collaborator in witnesses. -/
def encodeText : Text → Nat
  | [] => 0
  | c :: r => Nat.pair c (encodeText r) + 1

/-- The remainder that the identifier scan of `rb_intern_str` inspects,
for the prefix categories that reach the scan (`@`, `@@`, and the
no-prefix default). -/
def scannedRemainder : Text → Text
  | [] => []
  | c :: rest =>
    if c = 64 then (if rest.head? = some 64 then rest.tail else rest)
    else c :: rest

/-- Well-formedness of the interning state, preserved by `rb_intern_str`
under an injective content hash:
1. the content-hash keys are distinct;
2. the id keys are distinct;
3. every content-hash entry points at a record whose text hashes to the
   entry's key;
4. every record stores its own key as its id;
5. every record's content hash is a key of the hash dictionary, mapped to
   the record's id;
6. the dynamic counter never falls below its bootstrap floor;
7. every registered id is below the next dynamic id;
8. at most one non-attrset record occupies a sequence block;
9. a record whose text is `base ++ "="` for a plainly-headed non-attrset
   record `base` sits at the attrset id of `base`'s block;
10. an attrset record sharing its block with a plainly-headed non-attrset
   record has that record's text plus `"="` as its text;
11. a record whose text ends in `"="` with a plainly-headed nonempty
   prefix coexists with a record for the prefix;
12. Local- and Constant-tagged records are empty or plainly headed
   (no `$`/`@` lead). -/
abbrev WF (hash : Text → Nat) (st : SymState) : Prop :=
  (st.sym_id.map Prod.fst).Nodup
  ∧ (st.id_str.map Prod.fst).Nodup
  ∧ (∀ p ∈ st.sym_id, ∃ q ∈ st.id_str, q.1 = p.2 ∧ hash q.2.str = p.1)
  ∧ (∀ q ∈ st.id_str, q.2.id = q.1)
  ∧ (∀ q ∈ st.id_str, (hash q.2.str, q.1) ∈ st.sym_id)
  ∧ 1000 ≤ st.last_id
  ∧ (∀ q ∈ st.id_str, q.1 < 8 * (st.last_id + 1))
  ∧ (∀ q1 ∈ st.id_str, ∀ q2 ∈ st.id_str,
      q1.1 % 8 ≠ 4 → q2.1 % 8 ≠ 4 → q1.1 / 8 = q2.1 / 8 → q1.1 = q2.1)
  ∧ (∀ r ∈ st.id_str, ∀ b ∈ st.id_str,
      r.2.str.getLast? = some 61 → r.2.str.dropLast = b.2.str →
      b.1 % 8 ≠ 4 → b.2.str ≠ [] →
      b.2.str.head? ≠ some 36 → b.2.str.head? ≠ some 64 →
      r.1 = 8 * (b.1 / 8) + 4)
  ∧ (∀ r ∈ st.id_str, ∀ b ∈ st.id_str,
      r.1 % 8 = 4 → b.1 % 8 ≠ 4 → b.1 / 8 = r.1 / 8 →
      b.2.str ≠ [] → b.2.str.head? ≠ some 36 → b.2.str.head? ≠ some 64 →
      r.2.str = b.2.str ++ [61])
  ∧ (∀ r ∈ st.id_str, r.2.str.getLast? = some 61 → r.2.str.dropLast ≠ [] →
      r.2.str.dropLast.head? ≠ some 36 → r.2.str.dropLast.head? ≠ some 64 →
      ∃ b ∈ st.id_str, b.2.str = r.2.str.dropLast)
  ∧ (∀ q ∈ st.id_str, q.1 % 8 = 0 ∨ q.1 % 8 = 5 →
      q.2.str = [] ∨ (q.2.str.head? ≠ some 36 ∧ q.2.str.head? ≠ some 64))


instance (hash : Text → Nat) (st : SymState) : Decidable (WF hash st) :=
  @instDecidableAnd _ _ inferInstance
    (@instDecidableAnd _ _ inferInstance
      (@instDecidableAnd _ _ inferInstance
        (@instDecidableAnd _ _ inferInstance
          (@instDecidableAnd _ _ inferInstance
            (@instDecidableAnd _ _ inferInstance
              (@instDecidableAnd _ _ inferInstance
                (@instDecidableAnd _ _ inferInstance
                  (@instDecidableAnd _ _ inferInstance
                    (@instDecidableAnd _ _ inferInstance
                      (@instDecidableAnd _ _ inferInstance
                        inferInstance))))))))))

/-- Constraints on the modelled operator table, exactly as the spec states
them (`rb_op_tbl` comes from parser headers that are not among the
sources): each reserved id is nonzero (zero is `CFDictionaryGetValue`'s
absence sentinel, so the C itself presumes nonzero ids) and strictly below
the 1000 floor of the dynamic sequence counter, and the operator names are
pairwise distinct. -/
abbrev OpTblOK (tbl : List (Nat × Text)) : Prop :=
  (∀ p ∈ tbl, 0 < p.1 ∧ p.1 < 1000)
  ∧ tbl.Pairwise (fun p q => p.2 ≠ q.2)

/-- Bootstrap state over an empty operator table, for witnesses. -/
def demoState : SymState := Init_PreSymbol encodeText []

/-- `demoState` after interning `"foo"`. -/
def fooState : SymState := (rb_intern_str encodeText [102, 111, 111] demoState).2

/-- `demoState` after interning the empty string. -/
def emptyTextState : SymState := (rb_intern_str encodeText [] demoState).2

/-- A small concrete operator table (`"+"` and `"-"`) for witnesses. -/
def opDemoTbl : List (Nat × Text) := [(331, [43]), (347, [45])]

/-- An operator table with the reserved tokens 321 for `"+@"` and 324 for
`"<=>"`, on which the attribute-setter derivation path of a dynamic intern
reaches a reserved id. -/
def opClashTbl : List (Nat × Text) := [(321, [43, 64]), (324, [60, 61, 62])]

/-- Everything `rb_intern_str` guarantees about its result, relative to
the entry state: the invariant is preserved, the returned id maps to a
record carrying the interned text, both dictionaries grow monotonically,
the counter is monotone, every new content-hash entry belongs to a text no
longer than the interned one, the returned id is a pre-existing binding or
attrset-tagged or dynamically sequenced, and every new record is
attrset-tagged or dynamically sequenced. -/
def InternPost (hash : Text → Nat) (str : Text) (st : SymState)
    (out : Nat × SymState) : Prop :=
  WF hash out.2
  ∧ lookupD out.2.id_str out.1 = some ⟨str, out.1⟩
  ∧ (∀ k v, lookupD st.id_str k = some v → lookupD out.2.id_str k = some v)
  ∧ (∀ k v, lookupD st.sym_id k = some v → lookupD out.2.sym_id k = some v)
  ∧ st.last_id ≤ out.2.last_id
  ∧ (∀ p ∈ out.2.sym_id, p ∈ st.sym_id ∨
      ∃ s', hash s' = p.1 ∧ s'.length ≤ str.length)
  ∧ (lookupD st.sym_id (hash str) = some out.1 ∨ out.1 % 8 = 4 ∨
      8 * 1001 ≤ out.1)
  ∧ (∀ q ∈ out.2.id_str, q ∈ st.id_str ∨ q.1 % 8 = 4 ∨ 8 * 1001 ≤ q.1)


/-! ### Association-list lookup lemmas -/

theorem lookupD_cons_self {α : Type} (l : List (Nat × α)) (k : Nat) (v : α) :
    lookupD ((k, v) :: l) k = some v := by
  simp [lookupD]

theorem lookupD_cons_ne {α : Type} (l : List (Nat × α)) {k k' : Nat} (v : α)
    (h : k' ≠ k) : lookupD ((k, v) :: l) k' = lookupD l k' := by
  simp [lookupD, h]

theorem lookupD_mem {α : Type} {l : List (Nat × α)} {k : Nat} {v : α}
    (h : lookupD l k = some v) : (k, v) ∈ l := by
  induction l with
  | nil => simp [lookupD] at h
  | cons p rest ih =>
    obtain ⟨k', v'⟩ := p
    by_cases hk : k = k'
    · subst hk
      simp [lookupD] at h
      simp [h]
    · rw [lookupD_cons_ne _ _ hk] at h
      exact List.mem_cons_of_mem _ (ih h)

theorem mem_lookupD {α : Type} {l : List (Nat × α)} {k : Nat} {v : α}
    (hnd : (l.map Prod.fst).Nodup) (h : (k, v) ∈ l) : lookupD l k = some v := by
  induction l with
  | nil => simp at h
  | cons p rest ih =>
    obtain ⟨k', v'⟩ := p
    simp only [List.map_cons, List.nodup_cons] at hnd
    rcases List.mem_cons.mp h with heq | hmem
    · obtain ⟨h1, h2⟩ := Prod.mk.injEq .. ▸ heq
      subst h1; subst h2
      simp [lookupD]
    · by_cases hk : k = k'
      · subst hk
        exact absurd (List.mem_map.mpr ⟨(k, v), hmem, rfl⟩) hnd.1
      · rw [lookupD_cons_ne _ _ hk]
        exact ih hnd.2 hmem

theorem lookupD_none_not_mem {α : Type} {l : List (Nat × α)} {k : Nat}
    (h : lookupD l k = none) : ∀ v, (k, v) ∉ l := by
  intro v hv
  induction l with
  | nil => simp at hv
  | cons p rest ih =>
    obtain ⟨k', v'⟩ := p
    by_cases hk : k = k'
    · subst hk; simp [lookupD] at h
    · rw [lookupD_cons_ne _ _ hk] at h
      rcases List.mem_cons.mp hv with heq | hmem
      · exact hk (congrArg Prod.fst heq)
      · exact ih h hmem

theorem lookupD_none_key {α : Type} {l : List (Nat × α)} {k : Nat}
    (h : lookupD l k = none) : k ∉ l.map Prod.fst := by
  intro hmem
  obtain ⟨⟨k', v⟩, hm, he⟩ := List.mem_map.mp hmem
  simp only at he
  subst he
  exact lookupD_none_not_mem h v hm

theorem nodup_key_unique {α : Type} {l : List (Nat × α)} {k : Nat} {a b : α}
    (hnd : (l.map Prod.fst).Nodup) (ha : (k, a) ∈ l) (hb : (k, b) ∈ l) :
    a = b := by
  have h1 := mem_lookupD hnd ha
  have h2 := mem_lookupD hnd hb
  rw [h1] at h2
  exact (Option.some.injEq ..).mp h2

/-! ### Arithmetic and text helpers -/

theorem rb_id_attrset_eq (i : Nat) : rb_id_attrset i = 8 * (i / 8) + 4 := by
  unfold rb_id_attrset ID_ATTRSET
  omega

theorem is_attrset_id_iff (i : Nat) : is_attrset_id i = true ↔ i % 8 = 4 := by
  unfold is_attrset_id ID_ATTRSET
  exact Nat.beq_eq_true_eq .. ▸ Iff.rfl

theorem is_attrset_id_false (i : Nat) : is_attrset_id i = false ↔ i % 8 ≠ 4 := by
  rw [← Bool.not_eq_true, is_attrset_id_iff]

/-- A name with a trailing `=` is always driven to junk by the identifier
scan when the scan starts at position zero. -/
theorem junk_of_trailing_eq {c : Nat} {rest : Text}
    (hl : (c :: rest).getLast? = some 61) :
    remainder_is_junk (c :: rest) = true := by
  unfold remainder_is_junk
  by_cases hd : isdigitc c = true
  · simp [hd]
  · have hmem : (61 : Nat) ∈ c :: rest := List.mem_of_mem_getLast? hl
    have hall : ¬((c :: rest).all is_identchar = true) := by
      rw [List.all_eq_true]
      intro h
      have := h 61 hmem
      simp [is_identchar, isalnumc, isdigitc, isalphac, isascii] at this
    simp only [Bool.or_eq_true, Bool.not_eq_true']
    exact Or.inr (Bool.eq_false_iff.mpr hall)

theorem text_decomp {c : Nat} {rest : Text}
    (hl : (c :: rest).getLast? = some 61) :
    c :: rest = (c :: rest).dropLast ++ [61] :=
  (List.dropLast_append_getLast? 61 hl).symm

theorem dropLast_cons_head {c : Nat} {rest : Text} (hr : rest ≠ []) :
    ((c :: rest).dropLast).head? = some c := by
  cases rest with
  | nil => exact absurd rfl hr
  | cons d rs => rfl

theorem dropLast_cons_ne_nil {c : Nat} {rest : Text} (hr : rest ≠ []) :
    (c :: rest).dropLast ≠ [] := by
  cases rest with
  | nil => exact absurd rfl hr
  | cons d rs => simp

theorem head?_of_append_eq {c : Nat} {rest X : Text}
    (h : c :: rest = X ++ [61]) (hX : X ≠ []) : X.head? = some c := by
  cases X with
  | nil => exact absurd rfl hX
  | cons x xs =>
    simp only [List.cons_append, List.cons.injEq] at h
    simp [h.1]

/-! ### Consequences of well-formedness -/

theorem WF.record_unique {hash : Text → Nat} {st : SymState} (hwf : WF hash st)
    {q1 q2 : Nat × Sym} (h1 : q1 ∈ st.id_str) (h2 : q2 ∈ st.id_str)
    (heq : q1.1 = q2.1) : q1 = q2 := by
  obtain ⟨-, ndI, -⟩ := hwf
  obtain ⟨k1, v1⟩ := q1
  obtain ⟨k2, v2⟩ := q2
  simp only at heq
  subst heq
  exact Prod.ext rfl (nodup_key_unique ndI h1 h2)

theorem WF.text_unique {hash : Text → Nat} {st : SymState} (hwf : WF hash st)
    {q1 q2 : Nat × Sym} (h1 : q1 ∈ st.id_str) (h2 : q2 ∈ st.id_str)
    (heq : q1.2.str = q2.2.str) : q1 = q2 := by
  obtain ⟨ndS, ndI, -, -, bck, -⟩ := hwf
  have hb1 := bck q1 h1
  have hb2 := bck q2 h2
  rw [heq] at hb1
  have hkey : q1.1 = q2.1 := nodup_key_unique ndS hb1 hb2
  obtain ⟨k1, v1⟩ := q1
  obtain ⟨k2, v2⟩ := q2
  simp only at hkey
  subst hkey
  exact Prod.ext rfl (nodup_key_unique ndI h1 h2)

/-- Master preservation lemma: registering a fresh record keeps the
invariant, given the freshness facts and the per-branch obligations on the
interned text. -/
theorem WF_register (hash : Text → Nat) (str : Text) (id L : Nat)
    (st : SymState)
    (hwf : WF hash st)
    (hmiss : lookupD st.sym_id (hash str) = none)
    (hfresh : id ∉ st.id_str.map Prod.fst)
    (hbound : id < 8 * (L + 1))
    (hLmono : st.last_id ≤ L) (hL : 1000 ≤ L)
    (hseq : ∀ q ∈ st.id_str, q.1 % 8 ≠ 4 → id % 8 ≠ 4 → q.1 / 8 = id / 8 →
        False)
    (hder1 : ∀ b ∈ st.id_str, str.getLast? = some 61 →
        str.dropLast = b.2.str → b.1 % 8 ≠ 4 → b.2.str ≠ [] →
        b.2.str.head? ≠ some 36 → b.2.str.head? ≠ some 64 →
        id = 8 * (b.1 / 8) + 4)
    (hder3 : ∀ b ∈ st.id_str, id % 8 = 4 → b.1 % 8 ≠ 4 → b.1 / 8 = id / 8 →
        b.2.str ≠ [] → b.2.str.head? ≠ some 36 → b.2.str.head? ≠ some 64 →
        str = b.2.str ++ [61])
    (hder4 : ∀ r ∈ st.id_str, r.1 % 8 = 4 → id % 8 ≠ 4 → id / 8 = r.1 / 8 →
        str ≠ [] → str.head? ≠ some 36 → str.head? ≠ some 64 →
        r.2.str = str ++ [61])
    (hab : str.getLast? = some 61 → str.dropLast ≠ [] →
        str.dropLast.head? ≠ some 36 → str.dropLast.head? ≠ some 64 →
        ∃ b ∈ st.id_str, b.2.str = str.dropLast)
    (hlc : id % 8 = 0 ∨ id % 8 = 5 →
        str = [] ∨ (str.head? ≠ some 36 ∧ str.head? ≠ some 64)) :
    WF hash { sym_id := (hash str, id) :: st.sym_id,
              id_str := (id, ⟨str, id⟩) :: st.id_str,
              last_id := L } := by
  obtain ⟨ndS, ndI, cns, own, bck, llb, bnd, sequ, dtext, ader, abase, lcs⟩ :=
    hwf
  refine ⟨?_, ?_, ?_, ?_, ?_, ?_, ?_, ?_, ?_, ?_, ?_, ?_⟩
  · simp only [List.map_cons, List.nodup_cons]
    exact ⟨lookupD_none_key hmiss, ndS⟩
  · simp only [List.map_cons, List.nodup_cons]
    exact ⟨hfresh, ndI⟩
  · intro p hp
    rcases List.mem_cons.mp hp with rfl | hp'
    · exact ⟨(id, ⟨str, id⟩), List.mem_cons_self .., rfl, rfl⟩
    · obtain ⟨q, hq, h1, h2⟩ := cns p hp'
      exact ⟨q, List.mem_cons_of_mem _ hq, h1, h2⟩
  · intro q hq
    rcases List.mem_cons.mp hq with rfl | hq'
    · rfl
    · exact own q hq'
  · intro q hq
    rcases List.mem_cons.mp hq with rfl | hq'
    · exact List.mem_cons_self ..
    · exact List.mem_cons_of_mem _ (bck q hq')
  · exact hL
  · intro q hq
    rcases List.mem_cons.mp hq with rfl | hq'
    · exact hbound
    · exact lt_of_lt_of_le (bnd q hq')
        (by omega : 8 * (st.last_id + 1) ≤ 8 * (L + 1))
  · intro q1 hq1 q2 hq2 h1 h2 h3
    rcases List.mem_cons.mp hq1 with rfl | hq1' <;>
      rcases List.mem_cons.mp hq2 with rfl | hq2'
    · rfl
    · exact (hseq q2 hq2' h2 h1 h3.symm).elim
    · exact (hseq q1 hq1' h1 h2 h3).elim
    · exact sequ q1 hq1' q2 hq2' h1 h2 h3
  · intro r hr b hb h61 hdl hb4 hbne hbh36 hbh64
    rcases List.mem_cons.mp hr with rfl | hr' <;>
      rcases List.mem_cons.mp hb with rfl | hb'
    · exfalso
      simp only at h61 hdl
      have hne : str ≠ [] := by
        intro h
        rw [h] at h61
        exact Option.noConfusion h61
      have hlen := congrArg List.length hdl
      rw [List.length_dropLast] at hlen
      have := List.length_pos.mpr hne
      omega
    · exact hder1 b hb' h61 hdl hb4 hbne hbh36 hbh64
    · exfalso
      simp only at hdl hbne hbh36 hbh64
      obtain ⟨b', hb'mem, hb'str⟩ := abase r hr' h61
        (by rw [hdl]; exact hbne) (by rw [hdl]; exact hbh36)
        (by rw [hdl]; exact hbh64)
      have hmem : (hash str, b'.1) ∈ st.sym_id := by
        have := bck b' hb'mem
        rwa [hb'str, hdl] at this
      have := mem_lookupD ndS hmem
      rw [hmiss] at this
      exact Option.noConfusion this
    · exact dtext r hr' b hb' h61 hdl hb4 hbne hbh36 hbh64
  · intro r hr b hb hr4 hb4 hdiv hbne h36 h64
    rcases List.mem_cons.mp hr with rfl | hr' <;>
      rcases List.mem_cons.mp hb with rfl | hb'
    · exact absurd hr4 hb4
    · exact hder3 b hb' hr4 hb4 hdiv hbne h36 h64
    · exact hder4 r hr' hr4 hb4 hdiv hbne h36 h64
    · exact ader r hr' b hb' hr4 hb4 hdiv hbne h36 h64
  · intro r hr h61 hne h36 h64
    rcases List.mem_cons.mp hr with rfl | hr'
    · obtain ⟨b, hbmem, hbstr⟩ := hab h61 hne h36 h64
      exact ⟨b, List.mem_cons_of_mem _ hbmem, hbstr⟩
    · obtain ⟨b, hbmem, hbstr⟩ := abase r hr' h61 hne h36 h64
      exact ⟨b, List.mem_cons_of_mem _ hbmem, hbstr⟩
  · intro q hq hmod
    rcases List.mem_cons.mp hq with rfl | hq'
    · exact hlc hmod
    · exact lcs q hq' hmod

/-- The `new_id` exit of `rb_intern_str` satisfies the postcondition, for
any branch that supplies its junk-scan tag together with the per-branch
shape facts. -/
theorem newIdRegister_post (hash : Text → Nat) (str : Text) (st : SymState)
    (tag : Nat)
    (hwf : WF hash st)
    (hmiss : lookupD st.sym_id (hash str) = none)
    (htag : tag < 8) (htag4 : tag ≠ 4)
    (hlc : tag = 0 ∨ tag = 5 →
        str = [] ∨ (str.head? ≠ some 36 ∧ str.head? ≠ some 64))
    (hnew : ∀ X, str = X ++ [61] → X ≠ [] → X.head? ≠ some 36 →
        X.head? ≠ some 64 → ∃ b ∈ st.id_str, b.2.str = X ∧ b.1 % 8 = 4) :
    InternPost hash str st (newIdRegister hash str tag st) := by
  obtain ⟨ndS, ndI, cns, own, bck, llb, bnd, sequ, dtext, ader, abase, lcs⟩ :=
    hwf
  have hwf' : WF hash st :=
    ⟨ndS, ndI, cns, own, bck, llb, bnd, sequ, dtext, ader, abase, lcs⟩
  set id := tag + 8 * (st.last_id + 1) with hid
  have hid_mod : id % 8 = tag := by omega
  have hid_div : id / 8 = st.last_id + 1 := by omega
  have hid_ge : 8 * (st.last_id + 1) ≤ id := by omega
  have hfresh : id ∉ st.id_str.map Prod.fst := by
    intro hmem
    obtain ⟨q, hm, hk⟩ := List.mem_map.mp hmem
    have := bnd q hm
    omega
  have hWFnew : WF hash { sym_id := (hash str, id) :: st.sym_id, id_str := (id, ⟨str, id⟩) :: st.id_str, last_id := st.last_id + 1 } := by
    refine WF_register hash str id (st.last_id + 1) st hwf' hmiss hfresh
      (by omega) (by omega) (by omega) ?_ ?_ ?_ ?_ ?_ ?_
    · intro q hq hq4 hi4 hdiv
      have := bnd q hq
      omega
    · intro b hb h61 hdl hb4 hbne h36 h64
      exfalso
      have hstr : str = b.2.str ++ [61] := by
        have h2 := List.dropLast_append_getLast? 61 h61
        rw [hdl] at h2
        exact h2.symm
      obtain ⟨b2, hb2m, hb2str, hb2mod⟩ := hnew b.2.str hstr hbne h36 h64
      have heq : b2 = b := WF.text_unique hwf' hb2m hb (by rw [hb2str])
      rw [heq] at hb2mod
      exact hb4 hb2mod
    · intro b hb h4 _ _ _ _ _
      exact absurd h4 (by omega)
    · intro r hr hr4 hi4 hdiv _ _ _
      exfalso
      have := bnd r hr
      omega
    · intro h61 hne h36 h64
      have hstr : str = str.dropLast ++ [61] :=
        (List.dropLast_append_getLast? 61 h61).symm
      obtain ⟨b, hbm, hbstr, -⟩ := hnew str.dropLast hstr hne h36 h64
      exact ⟨b, hbm, hbstr⟩
    · intro h
      exact hlc (by omega)
  refine ⟨hWFnew, ?_, ?_, ?_, ?_, ?_, ?_, ?_⟩
  · show lookupD ((id, (⟨str, id⟩ : Sym)) :: st.id_str) id = some ⟨str, id⟩
    exact lookupD_cons_self ..
  · intro k v hkv
    have hk : k ≠ id := by
      intro h
      exact hfresh (List.mem_map.mpr ⟨(id, v), lookupD_mem (h ▸ hkv), rfl⟩)
    show lookupD ((id, (⟨str, id⟩ : Sym)) :: st.id_str) k = some v
    rw [lookupD_cons_ne _ _ hk]
    exact hkv
  · intro k v hkv
    have hk : k ≠ hash str := by
      intro h
      subst h
      rw [hmiss] at hkv
      exact Option.noConfusion hkv
    show lookupD ((hash str, id) :: st.sym_id) k = some v
    rw [lookupD_cons_ne _ _ hk]
    exact hkv
  · show st.last_id ≤ st.last_id + 1
    omega
  · intro p hp
    rcases List.mem_cons.mp (show p ∈ (hash str, id) :: st.sym_id from hp)
      with rfl | hp'
    · exact Or.inr ⟨str, rfl, le_refl _⟩
    · exact Or.inl hp'
  · refine Or.inr (Or.inr ?_)
    show 8 * 1001 ≤ tag + 8 * (st.last_id + 1)
    omega
  · intro q hq
    rcases List.mem_cons.mp
      (show q ∈ (id, (⟨str, id⟩ : Sym)) :: st.id_str from hq) with rfl | hq'
    · refine Or.inr (Or.inr ?_)
      show 8 * 1001 ≤ tag + 8 * (st.last_id + 1)
      omega
    · exact Or.inl hq'

/-- The `id_register` exit reached from the attribute-assignment branch
satisfies the postcondition. -/
theorem registerAttr_post (hash : Text → Nat) (c : Nat) (rest : Text)
    (st : SymState) (bid : Nat)
    (hwf : WF hash st)
    (hmiss : lookupD st.sym_id (hash (c :: rest)) = none)
    (hc36 : c ≠ 36) (hc64 : c ≠ 64) (hr : rest ≠ [])
    (hlast : (c :: rest).getLast? = some 61)
    (hbase : (bid, (⟨(c :: rest).dropLast, bid⟩ : Sym)) ∈ st.id_str)
    (hbid4 : bid % 8 ≠ 4) :
    InternPost hash (c :: rest) st
      (registerSym hash (c :: rest) (rb_id_attrset bid) st) := by
  obtain ⟨ndS, ndI, cns, own, bck, llb, bnd, sequ, dtext, ader, abase, lcs⟩ :=
    hwf
  have hwf' : WF hash st :=
    ⟨ndS, ndI, cns, own, bck, llb, bnd, sequ, dtext, ader, abase, lcs⟩
  have hbbound := bnd _ hbase
  simp only at hbbound
  set id := rb_id_attrset bid with hiddef
  have hideq : id = 8 * (bid / 8) + 4 := rb_id_attrset_eq bid
  have hid_mod : id % 8 = 4 := by omega
  have hid_div : id / 8 = bid / 8 := by omega
  have hdln : (c :: rest).dropLast ≠ [] := dropLast_cons_ne_nil hr
  have hdlh : ((c :: rest).dropLast).head? = some c := dropLast_cons_head hr
  have hdlh36 : ((c :: rest).dropLast).head? ≠ some 36 := by
    rw [hdlh]
    intro h
    exact hc36 (Option.some.injEq .. ▸ h)
  have hdlh64 : ((c :: rest).dropLast).head? ≠ some 64 := by
    rw [hdlh]
    intro h
    exact hc64 (Option.some.injEq .. ▸ h)
  have hdecomp : c :: rest = (c :: rest).dropLast ++ [61] := text_decomp hlast
  have hfresh : id ∉ st.id_str.map Prod.fst := by
    intro hmem
    obtain ⟨q, hm, hk⟩ := List.mem_map.mp hmem
    have hqstr : q.2.str = (c :: rest).dropLast ++ [61] := by
      exact ader q hm _ hbase (by omega) hbid4 (by omega) hdln hdlh36 hdlh64
    have hq2 : q.2.str = c :: rest := by rw [hqstr, ← hdecomp]
    have hmem2 : (hash (c :: rest), q.1) ∈ st.sym_id := by
      have := bck q hm
      rwa [hq2] at this
    have := mem_lookupD ndS hmem2
    rw [hmiss] at this
    exact Option.noConfusion this
  have hWFnew : WF hash { sym_id := (hash (c :: rest), id) :: st.sym_id, id_str := (id, ⟨c :: rest, id⟩) :: st.id_str, last_id := st.last_id } := by
    refine WF_register hash (c :: rest) id st.last_id st hwf' hmiss hfresh
      (by omega) (by omega) llb ?_ ?_ ?_ ?_ ?_ ?_
    · intro q hq hq4 hi4 hdiv
      exact hi4 hid_mod
    · intro b hb h61 hdl hb4 hbne h36 h64
      have heq : b = (bid, (⟨(c :: rest).dropLast, bid⟩ : Sym)) :=
        WF.text_unique hwf' hb hbase (by rw [← hdl])
      rw [heq]
      omega
    · intro b hb h4 hb4 hdiv hbne h36 h64
      have hkey : b.1 = bid := by
        refine sequ b hb (bid, ⟨(c :: rest).dropLast, bid⟩) hbase hb4
          (by simpa using hbid4) ?_
        simpa using by omega
      have heq : b = (bid, (⟨(c :: rest).dropLast, bid⟩ : Sym)) :=
        WF.record_unique hwf' hb hbase (by simpa using hkey)
      rw [heq]
      exact hdecomp
    · intro r hr hr4 hi4 hdiv _ _ _
      exact absurd hid_mod hi4
    · intro h61 hne h36 h64
      refine ⟨(bid, ⟨(c :: rest).dropLast, bid⟩), hbase, ?_⟩
      show (c :: rest).dropLast = (c :: rest).dropLast
      rfl
    · intro h
      omega
  refine ⟨hWFnew, ?_, ?_, ?_, ?_, ?_, ?_, ?_⟩
  · show lookupD ((id, (⟨c :: rest, id⟩ : Sym)) :: st.id_str) id =
      some ⟨c :: rest, id⟩
    exact lookupD_cons_self ..
  · intro k v hkv
    have hk : k ≠ id := by
      intro h
      exact hfresh (List.mem_map.mpr ⟨(id, v), lookupD_mem (h ▸ hkv), rfl⟩)
    show lookupD ((id, (⟨c :: rest, id⟩ : Sym)) :: st.id_str) k = some v
    rw [lookupD_cons_ne _ _ hk]
    exact hkv
  · intro k v hkv
    have hk : k ≠ hash (c :: rest) := by
      intro h
      subst h
      rw [hmiss] at hkv
      exact Option.noConfusion hkv
    show lookupD ((hash (c :: rest), id) :: st.sym_id) k = some v
    rw [lookupD_cons_ne _ _ hk]
    exact hkv
  · show st.last_id ≤ st.last_id
    exact le_refl _
  · intro p hp
    rcases List.mem_cons.mp
      (show p ∈ (hash (c :: rest), id) :: st.sym_id from hp) with rfl | hp'
    · exact Or.inr ⟨c :: rest, rfl, le_refl _⟩
    · exact Or.inl hp'
  · exact Or.inr (Or.inl hid_mod)
  · intro q hq
    rcases List.mem_cons.mp
      (show q ∈ (id, (⟨c :: rest, id⟩ : Sym)) :: st.id_str from hq)
      with rfl | hq'
    · exact Or.inr (Or.inl hid_mod)
    · exact Or.inl hq'

/-- A content key that is absent stays absent across an intern of a
strictly shorter text. -/
theorem miss_persist (hash : Text → Nat) (hinj : Function.Injective hash)
    {sub str : Text} {st : SymState} {out : Nat × SymState}
    (hwf : WF hash st)
    (hpost : InternPost hash sub st out)
    (hmiss : lookupD st.sym_id (hash str) = none)
    (hlt : sub.length < str.length) :
    lookupD out.2.sym_id (hash str) = none := by
  cases hlk : lookupD out.2.sym_id (hash str) with
  | none => rfl
  | some v =>
    exfalso
    obtain ⟨-, -, -, -, -, hnews, -, -⟩ := hpost
    have hmem := lookupD_mem hlk
    rcases hnews _ hmem with hold | ⟨s', hs', hslen⟩
    · have := mem_lookupD hwf.1 hold
      rw [hmiss] at this
      exact Option.noConfusion this
    · have heq : s' = str := hinj hs'
      subst heq
      omega

/-- Postconditions compose along the recursive call of the
attribute-assignment branch. -/
theorem internPost_trans (hash : Text → Nat) {s1 s2 : Text} {st : SymState}
    {mid out : Nat × SymState}
    (h1 : InternPost hash s1 st mid)
    (h2 : InternPost hash s2 mid.2 out)
    (hlen : s1.length ≤ s2.length)
    (hmiss2 : lookupD mid.2.sym_id (hash s2) = none) :
    InternPost hash s2 st out := by
  obtain ⟨w1, r1, mi1, ms1, l1, n1, c1, a1⟩ := h1
  obtain ⟨w2, r2, mi2, ms2, l2, n2, c2, a2⟩ := h2
  refine ⟨w2, r2, fun k v h => mi2 k v (mi1 k v h),
    fun k v h => ms2 k v (ms1 k v h), le_trans l1 l2, ?_, ?_, ?_⟩
  · intro p hp
    rcases n2 p hp with hmid | ⟨s', hs', hl⟩
    · rcases n1 p hmid with hold | ⟨s', hs', hl⟩
      · exact Or.inl hold
      · exact Or.inr ⟨s', hs', le_trans hl hlen⟩
    · exact Or.inr ⟨s', hs', hl⟩
  · rcases c2 with hc | hc
    · rw [hmiss2] at hc
      exact Option.noConfusion hc
    · exact Or.inr hc
  · intro q hq
    rcases a2 q hq with hmid | hrest
    · exact a1 q hmid
    · exact Or.inr hrest

/-- The main induction: the fuelled `rb_intern_str` satisfies its
postcondition on any well-formed state under an injective hash, provided
the fuel strictly dominates the text length. -/
theorem internAux_post (hash : Text → Nat) (hinj : Function.Injective hash) :
    ∀ fuel str st, str.length < fuel → WF hash st →
      InternPost hash str st (internAux hash fuel str st) := by
  intro fuel
  induction fuel with
  | zero => intro str st hlen hwf; exact absurd hlen (Nat.not_lt_zero _)
  | succ fuel ih =>
    intro str st hlen hwf
    cases hlk : lookupD st.sym_id (hash str) with
    | some id =>
      have hstep : internAux hash (fuel + 1) str st = (id, st) := by
        simp [internAux, hlk]
      rw [hstep]
      obtain ⟨ndS, ndI, cns, own, bck, llb, bnd, sequ, dtext, ader, abase,
        lcs⟩ := hwf
      have hwf' : WF hash st :=
        ⟨ndS, ndI, cns, own, bck, llb, bnd, sequ, dtext, ader, abase, lcs⟩
      have hmem := lookupD_mem hlk
      obtain ⟨q, hq, hq1, hq2⟩ := cns _ hmem
      have hqstr : q.2.str = str := hinj hq2
      have hq' : q = (id, ⟨str, id⟩) := by
        have hqid := own q hq
        obtain ⟨k, v⟩ := q
        simp only at hq1 hqstr hqid
        subst hq1
        obtain ⟨vs, vi⟩ := v
        simp only at hqstr hqid
        subst hqstr
        subst hqid
        rfl
      have hreg : lookupD st.id_str id = some ⟨str, id⟩ := by
        rw [hq'] at hq
        exact mem_lookupD ndI hq
      exact ⟨hwf', hreg, fun k v h => h, fun k v h => h, le_refl _,
        fun p hp => Or.inl hp, Or.inl hlk, fun q hq => Or.inl hq⟩
    | none =>
      cases str with
      | nil =>
        have hstep : internAux hash (fuel + 1) ([] : Text) st =
            newIdRegister hash [] 0 st := by
          simp [internAux, hlk]
        rw [hstep]
        refine newIdRegister_post hash [] st 0 hwf hlk (by omega) (by omega)
          (fun _ => Or.inl rfl) ?_
        intro X hX hne h36 h64
        exfalso
        have := congrArg List.length hX
        simp only [List.length_nil, List.length_append, List.length_cons]
          at this
        omega
      | cons c rest =>
        by_cases hc36 : c = 36
        · subst hc36
          have hstep : internAux hash (fuel + 1) (36 :: rest) st =
              newIdRegister hash (36 :: rest) ID_GLOBAL st := by
            simp [internAux, hlk]
          rw [hstep]
          refine newIdRegister_post hash (36 :: rest) st ID_GLOBAL hwf hlk
            (by decide) (by decide) (fun h => absurd h (by decide)) ?_
          intro X hX hne h36 h64
          exact absurd (head?_of_append_eq hX hne) h36
        · by_cases hc64 : c = 64
          · subst hc64
            by_cases hh : rest.head? = some 64
            · have hstep : internAux hash (fuel + 1) (64 :: rest) st =
                  newIdRegister hash (64 :: rest)
                    (if remainder_is_junk rest.tail then ID_JUNK else ID_CLASS)
                    st := by
                simp [internAux, hlk, hc36, hh]
              rw [hstep]
              refine newIdRegister_post hash (64 :: rest) st _ hwf hlk
                (by split <;> decide) (by split <;> decide)
                (by split <;> exact fun h => absurd h (by decide)) ?_
              intro X hX hne h36 h64
              exact absurd (head?_of_append_eq hX hne) h64
            · have hstep : internAux hash (fuel + 1) (64 :: rest) st =
                  newIdRegister hash (64 :: rest)
                    (if remainder_is_junk rest then ID_JUNK else ID_INSTANCE)
                    st := by
                simp [internAux, hlk, hc36, hh]
              rw [hstep]
              refine newIdRegister_post hash (64 :: rest) st _ hwf hlk
                (by split <;> decide) (by split <;> decide)
                (by split <;> exact fun h => absurd h (by decide)) ?_
              intro X hX hne h36 h64
              exact absurd (head?_of_append_eq hX hne) h64
          · by_cases hcond : rest ≠ [] ∧ (c :: rest).getLast? = some 61
            · -- attribute-assignment branch
              obtain ⟨hr, hlast⟩ := hcond
              have hlen' : ((c :: rest).dropLast).length < fuel := by
                rw [List.length_dropLast]
                simp only [List.length_cons] at hlen ⊢
                omega
              have hrec := ih ((c :: rest).dropLast) st hlen' hwf
              have hmiss' : lookupD (internAux hash fuel
                  ((c :: rest).dropLast) st).2.sym_id (hash (c :: rest)) =
                  none := by
                refine miss_persist hash hinj hwf hrec hlk ?_
                rw [List.length_dropLast]
                simp only [List.length_cons]
                have := List.length_pos.mpr hr
                omega
              obtain ⟨w1, r1, mi1, ms1, l1, n1, c1, a1⟩ := hrec
              have hrec' : InternPost hash ((c :: rest).dropLast) st
                  (internAux hash fuel ((c :: rest).dropLast) st) :=
                ⟨w1, r1, mi1, ms1, l1, n1, c1, a1⟩
              by_cases hattr :
                  is_attrset_id (internAux hash fuel
                    ((c :: rest).dropLast) st).1 = true
              · -- base already attrset: junk-scanned fresh id
                have hjunk : remainder_is_junk (c :: rest) = true :=
                  junk_of_trailing_eq hlast
                have hstep : internAux hash (fuel + 1) (c :: rest) st =
                    newIdRegister hash (c :: rest) ID_JUNK
                      (internAux hash fuel ((c :: rest).dropLast) st).2 := by
                  simp [internAux, hlk, hc36, hc64, hr, hlast, hattr, hjunk]
                rw [hstep]
                refine internPost_trans hash hrec'
                  (newIdRegister_post hash (c :: rest) _ ID_JUNK w1 hmiss'
                    (by decide) (by decide) (fun h => absurd h (by decide))
                    ?_)
                  (by rw [List.length_dropLast]; simp) hmiss'
                intro X hX hne h36 h64
                have hXd : X = (c :: rest).dropLast := by
                  rw [hX, List.dropLast_concat]
                refine ⟨((internAux hash fuel ((c :: rest).dropLast) st).1,
                  ⟨(c :: rest).dropLast, _⟩), lookupD_mem r1, ?_, ?_⟩
                · simp [hXd]
                · simpa using (is_attrset_id_iff _).mp hattr
              · -- derived attrset id reusing the base sequence number
                have hattr' : is_attrset_id (internAux hash fuel
                    ((c :: rest).dropLast) st).1 = false := by
                  cases h : is_attrset_id (internAux hash fuel
                      ((c :: rest).dropLast) st).1
                  · rfl
                  · exact absurd h hattr
                have hstep : internAux hash (fuel + 1) (c :: rest) st =
                    registerSym hash (c :: rest)
                      (rb_id_attrset (internAux hash fuel
                        ((c :: rest).dropLast) st).1)
                      (internAux hash fuel ((c :: rest).dropLast) st).2 := by
                  simp [internAux, hlk, hc36, hc64, hr, hlast, hattr']
                rw [hstep]
                refine internPost_trans hash hrec'
                  (registerAttr_post hash c rest _ _ w1 hmiss' hc36 hc64 hr
                    hlast (lookupD_mem r1) ((is_attrset_id_false _).mp hattr'))
                  (by rw [List.length_dropLast]; simp) hmiss'
            · -- default branch: Constant / Local with junk override
              have hstep : internAux hash (fuel + 1) (c :: rest) st =
                  newIdRegister hash (c :: rest)
                    (if remainder_is_junk (c :: rest) then ID_JUNK
                     else if isupperc c then ID_CONST else ID_LOCAL) st := by
                simp [internAux, hlk, hc36, hc64, hcond]
              rw [hstep]
              refine newIdRegister_post hash (c :: rest) st _ hwf hlk
                (by split
                    · decide
                    · split <;> decide)
                (by split
                    · decide
                    · split <;> decide) ?_ ?_
              · intro htag
                refine Or.inr ⟨?_, ?_⟩
                · simp only [List.head?_cons]
                  intro h
                  exact hc36 (Option.some.injEq .. ▸ h)
                · simp only [List.head?_cons]
                  intro h
                  exact hc64 (Option.some.injEq .. ▸ h)
              · intro X hX hne h36 h64
                exfalso
                apply hcond
                constructor
                · intro hrest
                  subst hrest
                  have := congrArg List.length hX
                  simp only [List.length_cons, List.length_nil,
                    List.length_append] at this
                  have := List.length_pos.mpr hne
                  omega
                · rw [hX]
                  exact List.getLast?_concat _

/-- `rb_intern_str` satisfies the postcondition. -/
theorem rb_intern_str_post (hash : Text → Nat)
    (hinj : Function.Injective hash) (str : Text) (st : SymState)
    (hwf : WF hash st) :
    InternPost hash str st (rb_intern_str hash str st) :=
  internAux_post hash hinj (str.length + 1) str st (by omega) hwf

/-- `rb_id2str` on a directly registered id is the stored record. -/
theorem rb_id2str_of_reg (hash : Text → Nat) (id : Nat) (st : SymState)
    (sym : Sym) (h : lookupD st.id_str id = some sym) :
    rb_id2str hash id st = (some sym, st) := by
  simp [rb_id2str, h]

/-- The concrete witness hash is injective. -/
theorem encodeText_injective : Function.Injective encodeText := by
  intro a
  induction a with
  | nil =>
    intro b h
    cases b with
    | nil => rfl
    | cons d s => simp [encodeText] at h
  | cons c r ih =>
    intro b h
    cases b with
    | nil => simp [encodeText] at h
    | cons d s =>
      simp only [encodeText, Nat.add_right_cancel_iff] at h
      obtain ⟨h1, h2⟩ := Nat.pair_eq_pair.mp h
      rw [h1, ih h2]

/-- The content-hash hit path of the fuelled intern. -/
theorem internAux_hit (hash : Text → Nat) (fuel : Nat) (str : Text)
    (st : SymState) (id : Nat)
    (h : lookupD st.sym_id (hash str) = some id) :
    internAux hash (fuel + 1) str st = (id, st) := by
  simp [internAux, h]

/-- C1: for every string `s`, resolving the SymbolID returned by interning
`s` yields `s` itself — on a well-formed state with an injective content
hash, `rb_id2str` of `rb_intern_str`'s id in the post-intern state returns
the record carrying exactly the text `s`. -/
theorem C1_resolve_intern_roundtrip (hash : Text → Nat)
    (hinj : Function.Injective hash) (st : SymState) (hwf : WF hash st)
    (s : Text) :
    (rb_id2str hash (rb_intern_str hash s st).1
        (rb_intern_str hash s st).2).1 =
      some ⟨s, (rb_intern_str hash s st).1⟩ := by
  obtain ⟨w, r, -⟩ := rb_intern_str_post hash hinj s st hwf
  rw [rb_id2str_of_reg hash _ _ _ r]

theorem C1_witness :
    WF encodeText demoState ∧
      (rb_id2str encodeText
          (rb_intern_str encodeText [102, 111, 111] demoState).1
          (rb_intern_str encodeText [102, 111, 111] demoState).2).1 =
        some ⟨[102, 111, 111],
          (rb_intern_str encodeText [102, 111, 111] demoState).1⟩ :=
  ⟨by decide, C1_resolve_intern_roundtrip encodeText encodeText_injective
    demoState (by decide) [102, 111, 111]⟩

/-- C2: intern is idempotent (repeated calls with equal content return the
same id); distinct texts (whose content hashes differ — automatic under an
injective hash) receive distinct ids; and over all interned records, text
equality holds exactly when id equality holds. -/
theorem C2_intern_dedup (hash : Text → Nat)
    (hinj : Function.Injective hash) (st : SymState) (hwf : WF hash st) :
    (∀ s, (rb_intern_str hash s (rb_intern_str hash s st).2).1 =
        (rb_intern_str hash s st).1)
    ∧ (∀ s1 s2, s1 ≠ s2 →
        (rb_intern_str hash s2 (rb_intern_str hash s1 st).2).1 ≠
          (rb_intern_str hash s1 st).1)
    ∧ (∀ q1 ∈ st.id_str, ∀ q2 ∈ st.id_str,
        q1.2.str = q2.2.str ↔ q1.1 = q2.1) := by
  refine ⟨?_, ?_, ?_⟩
  · intro s
    obtain ⟨w, r, -⟩ := rb_intern_str_post hash hinj s st hwf
    obtain ⟨ndS, ndI, cns, own, bck, -⟩ := w
    have hmem := lookupD_mem r
    have hsym := bck _ hmem
    have hhit : lookupD (rb_intern_str hash s st).2.sym_id (hash s) =
        some (rb_intern_str hash s st).1 := mem_lookupD ndS hsym
    have hstep : rb_intern_str hash s (rb_intern_str hash s st).2 =
        ((rb_intern_str hash s st).1, (rb_intern_str hash s st).2) :=
      internAux_hit hash s.length s _ _ hhit
    rw [hstep]
  · intro s1 s2 hne heq
    obtain ⟨w1, r1, mi1, -⟩ := rb_intern_str_post hash hinj s1 st hwf
    obtain ⟨w2, r2, mi2, -⟩ := rb_intern_str_post hash hinj s2 _ w1
    have r1' := mi2 _ _ r1
    rw [heq] at r2
    have hcontra := r1'.symm.trans r2
    simp only [Option.some.injEq, Sym.mk.injEq] at hcontra
    exact hne hcontra.1
  · intro q1 h1 q2 h2
    constructor
    · intro h
      exact congrArg Prod.fst (WF.text_unique hwf h1 h2 h)
    · intro h
      exact congrArg (fun q => q.2.str) (WF.record_unique hwf h1 h2 h)

theorem C2_witness :
    WF encodeText demoState
    ∧ (rb_intern_str encodeText [97]
        (rb_intern_str encodeText [97] demoState).2).1 =
        (rb_intern_str encodeText [97] demoState).1
    ∧ (rb_intern_str encodeText [98]
        (rb_intern_str encodeText [97] demoState).2).1 ≠
        (rb_intern_str encodeText [97] demoState).1 :=
  ⟨by decide,
   (C2_intern_dedup encodeText encodeText_injective demoState (by decide)).1
     [97],
   (C2_intern_dedup encodeText encodeText_injective demoState
     (by decide)).2.1 [97] [98] (by decide)⟩

/-- C4: the classifier maps `"foo"` to Local, `"Foo"` to Constant,
`"@foo"` to Instance, `"@@foo"` to Class, `"$foo"` to Global, and `"foo="`
to AttributeSetter derived from the Local base (same sequence number as
`"foo"`). -/
theorem C4_classification :
    (rb_intern_str encodeText [102, 111, 111] demoState).1 % 8 = ID_LOCAL
    ∧ (rb_intern_str encodeText [70, 111, 111] demoState).1 % 8 = ID_CONST
    ∧ (rb_intern_str encodeText [64, 102, 111, 111] demoState).1 % 8 =
        ID_INSTANCE
    ∧ (rb_intern_str encodeText [64, 64, 102, 111, 111] demoState).1 % 8 =
        ID_CLASS
    ∧ (rb_intern_str encodeText [36, 102, 111, 111] demoState).1 % 8 =
        ID_GLOBAL
    ∧ (rb_intern_str encodeText [102, 111, 111, 61] demoState).1 % 8 =
        ID_ATTRSET
    ∧ (rb_intern_str encodeText [102, 111, 111, 61] demoState).1 / 8 =
        (rb_intern_str encodeText [102, 111, 111] demoState).1 / 8 := by
  decide

/-- C6: the display examples, plus: empty text and text containing a
non-printable code unit are always escaped. -/
theorem C6_display_escaping :
    display [102, 111, 111] = [58, 102, 111, 111]
    ∧ display [102, 111, 111, 32, 98, 97, 114] =
        [58, 34, 102, 111, 111, 32, 98, 97, 114, 34]
    ∧ display [43] = [58, 43]
    ∧ display [] = [58, 34, 34]
    ∧ (∀ t : Text, t = [] ∨ (∃ c ∈ t, isprintc c = false) →
        sym_should_be_escaped t = true) := by
  refine ⟨by decide, by decide, by decide, by decide, ?_⟩
  intro t ht
  rcases ht with rfl | ⟨c, hc, hcp⟩
  · rfl
  · cases t with
    | nil => rfl
    | cons a rest =>
      have hany : (a :: rest).any (fun x => !isprintc x) = true := by
        rw [List.any_eq_true]
        exact ⟨c, hc, by simp [hcp]⟩
      unfold sym_should_be_escaped
      simp [hany]

theorem C6_witness :
    ([10] = ([] : Text) ∨ ∃ c ∈ ([10] : Text), isprintc c = false)
    ∧ sym_should_be_escaped [10] = true :=
  ⟨Or.inr ⟨10, by decide, by decide⟩,
   C6_display_escaping.2.2.2.2 [10] (Or.inr ⟨10, by decide, by decide⟩)⟩

/-- C7: evaluation of the escaper on '['-led texts.  The one-character
text `"["` is NOT escaped (it prints bare, as `:[`): the code checks
`chars[pos] != ']'` only when a further character exists and then advances
`pos` unconditionally, so at end-of-string the check is skipped — against
the grammar in which `[` must be followed by `]`.  `"[]"` and `"[]="`
print bare; other '['-led texts are escaped. -/
theorem C7_bracket_escape :
    sym_should_be_escaped [91] = false
    ∧ sym_should_be_escaped [91, 93] = false
    ∧ sym_should_be_escaped [91, 93, 61] = false
    ∧ sym_should_be_escaped [91, 120] = true
    ∧ sym_should_be_escaped [91, 93, 61, 61] = true
    ∧ display [91] = [58, 91] := by
  decide

/-- The scope-tag bits of a freshly sequenced id are the chosen tag. -/
theorem newIdRegister_fst_mod (hash : Text → Nat) (str : Text)
    (st : SymState) (tag : Nat) (h : tag < 8) :
    (newIdRegister hash str tag st).1 % 8 = tag := by
  show (tag + 8 * (st.last_id + 1)) % 8 = tag
  omega

/-- C5 counterexample: `"$ "` contains a non-identifier character after
its `$` prefix, yet its category is Global, not Junk — the `$` branch of
`rb_intern_str` jumps straight to id assignment (`goto new_id`), skipping
the identifier scan, so the scan does not apply to `$`-prefixed names. -/
theorem C5_counterexample :
    is_identchar 32 = false
    ∧ (rb_intern_str encodeText [36, 32] demoState).1 % 8 = ID_GLOBAL
    ∧ ID_GLOBAL ≠ ID_JUNK := by
  decide

/-- C5 (amended): on a fresh text, the junk scan governs every scanned
prefix category — `@`, `@@`, and the no-prefix default (outside the
attribute-assignment branch) — overriding the chosen category to Junk
exactly when the scanned remainder begins with a digit or contains a
non-identifier character; but a leading-`$` Global name bypasses the scan
entirely and is never overridden to Junk. -/
theorem C5_junk_scan (hash : Text → Nat) (st : SymState) (c : Nat)
    (rest : Text)
    (hmiss : lookupD st.sym_id (hash (c :: rest)) = none) :
    (c = 36 → (rb_intern_str hash (c :: rest) st).1 % 8 = ID_GLOBAL)
    ∧ (c ≠ 36 → (rest = [] ∨ (c :: rest).getLast? ≠ some 61) →
        ((rb_intern_str hash (c :: rest) st).1 % 8 = ID_JUNK ↔
          remainder_is_junk (scannedRemainder (c :: rest)) = true)) := by
  constructor
  · intro hc
    subst hc
    have hstep : rb_intern_str hash (36 :: rest) st =
        newIdRegister hash (36 :: rest) ID_GLOBAL st := by
      show internAux hash (rest.length + 1 + 1) (36 :: rest) st = _
      simp [internAux, hmiss]
    rw [hstep, newIdRegister_fst_mod hash _ _ _ (by decide)]
  · intro hc36 hnotattr
    have hcond : ¬(rest ≠ [] ∧ (c :: rest).getLast? = some 61) := by
      rcases hnotattr with h | h
      · exact fun hk => hk.1 h
      · exact fun hk => h hk.2
    by_cases hc64 : c = 64
    · subst hc64
      by_cases hh : rest.head? = some 64
      · have hstep : rb_intern_str hash (64 :: rest) st =
            newIdRegister hash (64 :: rest)
              (if remainder_is_junk rest.tail then ID_JUNK else ID_CLASS)
              st := by
          show internAux hash (rest.length + 1 + 1) (64 :: rest) st = _
          simp [internAux, hmiss, hh]
        rw [hstep]
        have hscan : scannedRemainder (64 :: rest) = rest.tail := by
          simp [scannedRemainder, hh]
        rw [hscan]
        by_cases hj : remainder_is_junk rest.tail = true
        · rw [if_pos hj, newIdRegister_fst_mod hash _ _ _ (by decide)]
          simp [hj]
        · rw [if_neg hj, newIdRegister_fst_mod hash _ _ _ (by decide)]
          constructor
          · intro h
            exact absurd h (by decide)
          · intro h
            exact absurd h hj
      · have hstep : rb_intern_str hash (64 :: rest) st =
            newIdRegister hash (64 :: rest)
              (if remainder_is_junk rest then ID_JUNK else ID_INSTANCE)
              st := by
          show internAux hash (rest.length + 1 + 1) (64 :: rest) st = _
          simp [internAux, hmiss, hh]
        rw [hstep]
        have hscan : scannedRemainder (64 :: rest) = rest := by
          simp [scannedRemainder, hh]
        rw [hscan]
        by_cases hj : remainder_is_junk rest = true
        · rw [if_pos hj, newIdRegister_fst_mod hash _ _ _ (by decide)]
          simp [hj]
        · rw [if_neg hj, newIdRegister_fst_mod hash _ _ _ (by decide)]
          constructor
          · intro h
            exact absurd h (by decide)
          · intro h
            exact absurd h hj
    · have hstep : rb_intern_str hash (c :: rest) st =
          newIdRegister hash (c :: rest)
            (if remainder_is_junk (c :: rest) then ID_JUNK
             else if isupperc c then ID_CONST else ID_LOCAL) st := by
        show internAux hash (rest.length + 1 + 1) (c :: rest) st = _
        simp [internAux, hmiss, hc36, hc64, hcond]
      rw [hstep]
      have hscan : scannedRemainder (c :: rest) = c :: rest := by
        simp [scannedRemainder, hc64]
      rw [hscan]
      by_cases hj : remainder_is_junk (c :: rest) = true
      · rw [if_pos hj, newIdRegister_fst_mod hash _ _ _ (by decide)]
        simp [hj]
      · rw [if_neg hj,
          newIdRegister_fst_mod hash _ _ _ (by split <;> decide)]
        constructor
        · intro h
          exfalso
          revert h
          split <;> decide
        · intro h
          exact absurd h hj

theorem C5_witness :
    lookupD demoState.sym_id (encodeText [64, 32]) = none
    ∧ ((rb_intern_str encodeText [64, 32] demoState).1 % 8 = ID_JUNK ↔
        remainder_is_junk (scannedRemainder [64, 32]) = true) :=
  ⟨by decide,
   (C5_junk_scan encodeText demoState 64 [32] (by decide)).2 (by decide)
     (Or.inr (by decide))⟩

/-- The attribute-assignment branch of the fuelled intern, with the
recursive result abstracted. -/
theorem internAux_attr_step (hash : Text → Nat) (fuel : Nat) (c : Nat)
    (rest : Text) (st : SymState) (bid : Nat) (st2 : SymState)
    (hmiss : lookupD st.sym_id (hash (c :: rest)) = none)
    (hc36 : c ≠ 36) (hc64 : c ≠ 64) (hr : rest ≠ [])
    (hlast : (c :: rest).getLast? = some 61)
    (hrec : internAux hash fuel ((c :: rest).dropLast) st = (bid, st2)) :
    internAux hash (fuel + 1) (c :: rest) st =
      if is_attrset_id bid then
        newIdRegister hash (c :: rest)
          (if remainder_is_junk (c :: rest) then ID_JUNK else ID_ATTRSET) st2
      else registerSym hash (c :: rest) (rb_id_attrset bid) st2 := by
  simp [internAux, hmiss, hc36, hc64, hr, hlast, hrec]


/-- C9: an AttributeSetter id produced through the trailing-'=' intern
branch carries exactly the sequence-number bits of its base name's id and
differs from it only in the scope-tag field. -/
theorem C9_attrset_inherits_seq (hash : Text → Nat) (st : SymState)
    (c : Nat) (rest : Text)
    (hmiss : lookupD st.sym_id (hash (c :: rest)) = none)
    (hc36 : c ≠ 36) (hc64 : c ≠ 64) (hr : rest ≠ [])
    (hlast : (c :: rest).getLast? = some 61)
    (hbid : is_attrset_id
      (rb_intern_str hash ((c :: rest).dropLast) st).1 = false) :
    (rb_intern_str hash (c :: rest) st).1 =
      8 * ((rb_intern_str hash ((c :: rest).dropLast) st).1 / 8) + 4
    ∧ (rb_intern_str hash (c :: rest) st).1 % 8 = ID_ATTRSET
    ∧ (rb_intern_str hash (c :: rest) st).1 / 8 =
        (rb_intern_str hash ((c :: rest).dropLast) st).1 / 8 := by
  have hfuel : ((c :: rest).dropLast).length + 1 = rest.length + 1 := by
    rw [List.length_dropLast]
    simp
  obtain ⟨bid, st2, hrec⟩ : ∃ bid st2,
      internAux hash (rest.length + 1) ((c :: rest).dropLast) st =
        (bid, st2) := ⟨_, _, rfl⟩
  have hbase : rb_intern_str hash ((c :: rest).dropLast) st = (bid, st2) := by
    unfold rb_intern_str
    rw [hfuel, hrec]
  rw [hbase] at hbid
  have hstep : rb_intern_str hash (c :: rest) st =
      registerSym hash (c :: rest) (rb_id_attrset bid) st2 := by
    show internAux hash (rest.length + 1 + 1) (c :: rest) st = _
    rw [internAux_attr_step hash (rest.length + 1) c rest st bid st2 hmiss
      hc36 hc64 hr hlast hrec,
      if_neg (by simp [hbid] : ¬(is_attrset_id bid = true))]
  rw [hbase, hstep]
  show rb_id_attrset bid = 8 * (bid / 8) + 4 ∧
    rb_id_attrset bid % 8 = ID_ATTRSET ∧ rb_id_attrset bid / 8 = bid / 8
  rw [rb_id_attrset_eq]
  refine ⟨rfl, ?_, ?_⟩
  · show (8 * (bid / 8) + 4) % 8 = 4
    omega
  · omega

theorem C9_witness :
    lookupD demoState.sym_id (encodeText [102, 111, 111, 61]) = none
    ∧ is_attrset_id
        (rb_intern_str encodeText
          (([102, 111, 111, 61] : Text).dropLast) demoState).1 = false
    ∧ (rb_intern_str encodeText [102, 111, 111, 61] demoState).1 =
        8 * ((rb_intern_str encodeText
          (([102, 111, 111, 61] : Text).dropLast) demoState).1 / 8) + 4 :=
  ⟨by decide, by decide,
   (C9_attrset_inherits_seq encodeText demoState 102 [111, 111, 61]
     (by decide) (by decide) (by decide) (by decide) (by decide)
     (by decide)).1⟩

/-- When an attrset id has no record but a Local- or Constant-tagged base
record with the same sequence number and nonempty text exists, interning
`base.str ++ "="` registers exactly at the queried id. -/
theorem derivation_succeeds (hash : Text → Nat)
    (hinj : Function.Injective hash) (st : SymState) (hwf : WF hash st)
    (id : Nat) (hattr : id % 8 = 4)
    (hnone : lookupD st.id_str id = none)
    (b : Sym) (tag : Nat) (htag : tag = 0 ∨ tag = 5)
    (hb : lookupD st.id_str (id - 4 + tag) = some b)
    (hbne : b.str ≠ []) :
    rb_intern_str hash (b.str ++ [61]) st =
      registerSym hash (b.str ++ [61]) id st := by
  obtain ⟨ndS, ndI, cns, own, bck, llb, bnd, sequ, dtext, ader, abase,
    lcs⟩ := hwf
  have htag8 : tag < 8 := by rcases htag with rfl | rfl <;> decide
  have htagne4 : tag ≠ 4 := by rcases htag with rfl | rfl <;> decide
  have hbmem := lookupD_mem hb
  have htagmod : (id - 4 + tag) % 8 = tag := by omega
  have htagor : (id - 4 + tag) % 8 = 0 ∨ (id - 4 + tag) % 8 = 5 := by
    rcases htag with rfl | rfl
    · exact Or.inl htagmod
    · exact Or.inr htagmod
  have hhead : b.str.head? ≠ some 36 ∧ b.str.head? ≠ some 64 := by
    have hl := lcs _ hbmem htagor
    rcases hl with h | h
    · exact absurd h hbne
    · exact h
  obtain ⟨c, X, hbstr⟩ : ∃ c X, b.str = c :: X := by
    cases hbs : b.str with
    | nil => exact absurd hbs hbne
    | cons c X => exact ⟨c, X, rfl⟩
  have hc36 : c ≠ 36 := by
    intro h
    apply hhead.1
    rw [hbstr, h]
    rfl
  have hc64 : c ≠ 64 := by
    intro h
    apply hhead.2
    rw [hbstr, h]
    rfl
  have hstr2 : b.str ++ [61] = c :: (X ++ [61]) := by
    rw [hbstr]
    rfl
  have hdl : (c :: (X ++ [61])).dropLast = c :: X := by
    rw [show c :: (X ++ [61]) = (c :: X) ++ [61] from rfl,
      List.dropLast_concat]
  have hgl : (c :: (X ++ [61])).getLast? = some 61 := by
    rw [show c :: (X ++ [61]) = (c :: X) ++ [61] from rfl]
    exact List.getLast?_concat _
  have hmiss : lookupD st.sym_id (hash (b.str ++ [61])) = none := by
    cases hlk : lookupD st.sym_id (hash (b.str ++ [61])) with
    | none => rfl
    | some i =>
      exfalso
      obtain ⟨r, hrmem, hr1, hr2⟩ := cns _ (lookupD_mem hlk)
      obtain ⟨ri, rs⟩ := r
      simp only at hr1 hr2
      have hrstr : rs.str = b.str ++ [61] := hinj hr2
      have hrid : ri = 8 * ((id - 4 + tag) / 8) + 4 := by
        refine dtext (ri, rs) hrmem (id - 4 + tag, b) hbmem ?_ ?_ ?_ hbne
          hhead.1 hhead.2
        · show rs.str.getLast? = some 61
          rw [hrstr]
          exact List.getLast?_concat _
        · show rs.str.dropLast = b.str
          rw [hrstr]
          exact List.dropLast_concat
        · show (id - 4 + tag) % 8 ≠ 4
          omega
      have hrid2 : ri = id := by omega
      have hlkr : lookupD st.id_str ri = some rs := mem_lookupD ndI hrmem
      rw [hrid2, hnone] at hlkr
      exact Option.noConfusion hlkr
  have hbackb : lookupD st.sym_id (hash b.str) = some (id - 4 + tag) := by
    have hm := bck _ hbmem
    exact mem_lookupD ndS hm
  have hrec : internAux hash (X.length + 2) ((c :: (X ++ [61])).dropLast)
      st = (id - 4 + tag, st) := by
    rw [hdl]
    refine internAux_hit hash (X.length + 1) (c :: X) st (id - 4 + tag) ?_
    rw [← hbstr]
    exact hbackb
  have hres : internAux hash (X.length + 2 + 1) (c :: (X ++ [61])) st =
      registerSym hash (c :: (X ++ [61])) (rb_id_attrset (id - 4 + tag))
        st := by
    rw [internAux_attr_step hash (X.length + 2) c (X ++ [61]) st
      (id - 4 + tag) st (by rw [← hstr2]; exact hmiss) hc36 hc64 (by simp)
      hgl hrec]
    rw [if_neg]
    rw [is_attrset_id_iff]
    omega
  have hfinal : rb_id_attrset (id - 4 + tag) = id := by
    rw [rb_id_attrset_eq]
    omega
  have hlen2 : (b.str ++ [61]).length + 1 = X.length + 2 + 1 := by
    rw [hbstr]
    simp
  unfold rb_intern_str
  rw [hlen2, hstr2, hres, hfinal]

/-- C3 counterexample to the claim as stated: in the state where only the
empty string has been interned, the attrset id 8012 has no record and a
base record with the same sequence number tagged Local exists (the
empty-text record at 8008), yet `rb_id2str` returns NotFound instead of
the base text plus `=` — the derivation interns `"="`, which the junk
scan sends to a fresh Junk id rather than 8012, and the retry fails. -/
theorem C3_counterexample :
    is_attrset_id 8012 = true
    ∧ lookupD emptyTextState.id_str 8012 = none
    ∧ lookupD emptyTextState.id_str (8012 - 8012 % 8 + ID_LOCAL) =
        some ⟨[], 8008⟩
    ∧ (8012 - 8012 % 8 + ID_LOCAL) % 8 = ID_LOCAL
    ∧ (8012 - 8012 % 8 + ID_LOCAL) / 8 = 8012 / 8
    ∧ (rb_id2str encodeText 8012 emptyTextState).1 = none := by
  decide

/-- C3 (amended): for an AttributeSetter id with no stored record, on a
well-formed state under an injective hash: if a base record with the same
sequence number tagged Local exists and its text is nonempty, resolve
synthesizes `base_text ++ "="`, interns it as a fresh record at the
queried id, and returns that text; failing Local, a Constant-tagged base
with nonempty text is used the same way; if neither slot has a record,
resolve returns the value-level NotFound (`none`) — it never raises, being
a total function.  (The empty-text base is the correction: there the
derivation misses and resolve returns NotFound.) -/
theorem C3_resolve_derivation (hash : Text → Nat)
    (hinj : Function.Injective hash) (st : SymState) (hwf : WF hash st)
    (id : Nat) (hattr : is_attrset_id id = true)
    (hnone : lookupD st.id_str id = none) :
    (∀ b, lookupD st.id_str (id - id % 8 + ID_LOCAL) = some b →
        b.str ≠ [] → (rb_id2str hash id st).1 = some ⟨b.str ++ [61], id⟩)
    ∧ (∀ b, lookupD st.id_str (id - id % 8 + ID_LOCAL) = none →
        lookupD st.id_str (id - id % 8 + ID_CONST) = some b →
        b.str ≠ [] → (rb_id2str hash id st).1 = some ⟨b.str ++ [61], id⟩)
    ∧ (lookupD st.id_str (id - id % 8 + ID_LOCAL) = none →
        lookupD st.id_str (id - id % 8 + ID_CONST) = none →
        (rb_id2str hash id st).1 = none) := by
  have hmod : id % 8 = 4 := (is_attrset_id_iff id).mp hattr
  have hkeyL : id - id % 8 + ID_LOCAL = id - 4 + 0 := by
    show id - id % 8 + 0 = id - 4 + 0
    omega
  have hkeyC : id - id % 8 + ID_CONST = id - 4 + 5 := by
    show id - id % 8 + 5 = id - 4 + 5
    omega
  refine ⟨?_, ?_, ?_⟩
  · intro b hb hbne
    have hderiv := derivation_succeeds hash hinj st hwf id hmod hnone b 0
      (Or.inl rfl) (by rw [← hkeyL]; exact hb) hbne
    simp [rb_id2str, hnone, hattr, hb, hderiv, registerSym,
      lookupD_cons_self]
  · intro b hbl hb hbne
    have hderiv := derivation_succeeds hash hinj st hwf id hmod hnone b 5
      (Or.inr rfl) (by rw [← hkeyC]; exact hb) hbne
    simp [rb_id2str, hnone, hattr, hbl, hb, hderiv, registerSym,
      lookupD_cons_self]
  · intro hbl hbc
    simp [rb_id2str, hnone, hattr, hbl, hbc]

theorem C3_witness :
    WF encodeText fooState
    ∧ is_attrset_id 8012 = true
    ∧ lookupD fooState.id_str 8012 = none
    ∧ lookupD fooState.id_str (8012 - 8012 % 8 + ID_LOCAL) =
        some ⟨[102, 111, 111], 8008⟩
    ∧ (rb_id2str encodeText 8012 fooState).1 =
        some ⟨[102, 111, 111] ++ [61], 8012⟩ :=
  ⟨by decide, by decide, by decide, by decide,
   (C3_resolve_derivation encodeText encodeText_injective fooState
     (by decide) 8012 (by decide) (by decide)).1 ⟨[102, 111, 111], 8008⟩
     (by decide) (by decide)⟩

/-- An attrset-derived id always carries the AttributeSetter tag. -/
theorem rb_id_attrset_mod (i : Nat) : rb_id_attrset i % 8 = 4 := by
  rw [rb_id_attrset_eq]
  omega

/-- Bootstrap registration leaves the dynamic counter unchanged. -/
theorem op_tbl_register_last (hash : Text → Nat) :
    ∀ tbl st, (op_tbl_register hash tbl st).last_id = st.last_id := by
  intro tbl
  induction tbl with
  | nil => intro st; rfl
  | cons p rest ih =>
    obtain ⟨tok, name⟩ := p
    intro st
    exact ih _

/-- Bootstrap registration preserves content-hash bindings whose keys are
not among the hashes of the registered names. -/
theorem op_tbl_register_sym_other (hash : Text → Nat) :
    ∀ tbl st k v, (∀ p ∈ tbl, hash p.2 ≠ k) →
      lookupD st.sym_id k = some v →
      lookupD (op_tbl_register hash tbl st).sym_id k = some v := by
  intro tbl
  induction tbl with
  | nil => intro st k v _ hk; exact hk
  | cons p rest ih =>
    obtain ⟨tok, name⟩ := p
    intro st k v h hk
    refine ih _ k v (fun p hp => h p (List.mem_cons_of_mem _ hp)) ?_
    show lookupD ((hash name, tok) :: st.sym_id) k = some v
    rw [lookupD_cons_ne _ _ (fun he => h _ (List.mem_cons_self ..) he.symm)]
    exact hk

/-- After bootstrap, every table entry's name is bound to its reserved
token, for pairwise-distinct names under an injective hash. -/
theorem op_tbl_register_lookup (hash : Text → Nat)
    (hinj : Function.Injective hash) :
    ∀ tbl st, tbl.Pairwise (fun p q => p.2 ≠ q.2) →
      ∀ tok name, (tok, name) ∈ tbl →
      lookupD (op_tbl_register hash tbl st).sym_id (hash name) =
        some tok := by
  intro tbl
  induction tbl with
  | nil =>
    intro st _ tok name h
    simp at h
  | cons p rest ih =>
    obtain ⟨t, n⟩ := p
    intro st hpw tok name hmem
    obtain ⟨hhd, htl⟩ := List.pairwise_cons.mp hpw
    rcases List.mem_cons.mp hmem with heq | hmem'
    · obtain ⟨h1, h2⟩ := Prod.mk.injEq .. ▸ heq
      subst h1
      subst h2
      refine op_tbl_register_sym_other hash rest _ (hash name) tok ?_ ?_
      · intro p hp he
        exact hhd p hp (hinj he).symm
      · exact lookupD_cons_self ..
    · exact ih _ htl tok name hmem'

/-- Three facts about one intern call that need no state invariant at all:
existing content-hash bindings survive unchanged (fresh registrations only
ever use an absent key), the counter is monotone, and the returned id is a
pre-existing binding, or attrset-tagged, or freshly sequenced above the
counter. -/
theorem internAux_basic (hash : Text → Nat) :
    ∀ fuel s st, s.length < fuel →
      (∀ k v, lookupD st.sym_id k = some v →
        lookupD (internAux hash fuel s st).2.sym_id k = some v)
      ∧ st.last_id ≤ (internAux hash fuel s st).2.last_id
      ∧ (lookupD st.sym_id (hash s) = some (internAux hash fuel s st).1
          ∨ (internAux hash fuel s st).1 % 8 = 4
          ∨ 8 * (st.last_id + 1) ≤ (internAux hash fuel s st).1) := by
  intro fuel
  induction fuel with
  | zero =>
    intro s st hlen
    exact absurd hlen (Nat.not_lt_zero _)
  | succ fuel ih =>
    intro s st hlen
    cases hlk : lookupD st.sym_id (hash s) with
    | some id =>
      rw [internAux_hit hash fuel s st id hlk]
      refine ⟨fun k v h => h, le_refl _, Or.inl ?_⟩
      rfl
    | none =>
      have hkne : ∀ k v, lookupD st.sym_id k = some v → k ≠ hash s := by
        intro k v h he
        rw [he, hlk] at h
        exact Option.noConfusion h
      cases s with
      | nil =>
        rw [show internAux hash (fuel + 1) ([] : Text) st =
          newIdRegister hash [] 0 st from by simp [internAux, hlk]]
        refine ⟨?_, ?_, Or.inr (Or.inr ?_)⟩
        · intro k v h
          show lookupD ((hash [], 0 + 8 * (st.last_id + 1)) :: st.sym_id) k
            = some v
          rw [lookupD_cons_ne _ _ (hkne k v h)]
          exact h
        · show st.last_id ≤ st.last_id + 1
          omega
        · show 8 * (st.last_id + 1) ≤ 0 + 8 * (st.last_id + 1)
          omega
      | cons c rest =>
        by_cases hc36 : c = 36
        · subst hc36
          rw [show internAux hash (fuel + 1) (36 :: rest) st =
            newIdRegister hash (36 :: rest) ID_GLOBAL st from by
              simp [internAux, hlk]]
          refine ⟨?_, ?_, Or.inr (Or.inr ?_)⟩
          · intro k v h
            show lookupD ((hash (36 :: rest),
              ID_GLOBAL + 8 * (st.last_id + 1)) :: st.sym_id) k = some v
            rw [lookupD_cons_ne _ _ (hkne k v h)]
            exact h
          · show st.last_id ≤ st.last_id + 1
            omega
          · show 8 * (st.last_id + 1) ≤ ID_GLOBAL + 8 * (st.last_id + 1)
            omega
        · by_cases hc64 : c = 64
          · subst hc64
            by_cases hh : rest.head? = some 64
            · rw [show internAux hash (fuel + 1) (64 :: rest) st =
                newIdRegister hash (64 :: rest)
                  (if remainder_is_junk rest.tail then ID_JUNK else ID_CLASS)
                  st from by simp [internAux, hlk, hh]]
              refine ⟨?_, ?_, Or.inr (Or.inr ?_)⟩
              · intro k v h
                show lookupD ((hash (64 :: rest),
                  (if remainder_is_junk rest.tail then ID_JUNK else ID_CLASS)
                    + 8 * (st.last_id + 1)) :: st.sym_id) k = some v
                rw [lookupD_cons_ne _ _ (hkne k v h)]
                exact h
              · show st.last_id ≤ st.last_id + 1
                omega
              · show 8 * (st.last_id + 1) ≤
                  (if remainder_is_junk rest.tail then ID_JUNK else ID_CLASS)
                    + 8 * (st.last_id + 1)
                omega
            · rw [show internAux hash (fuel + 1) (64 :: rest) st =
                newIdRegister hash (64 :: rest)
                  (if remainder_is_junk rest then ID_JUNK else ID_INSTANCE)
                  st from by simp [internAux, hlk, hh]]
              refine ⟨?_, ?_, Or.inr (Or.inr ?_)⟩
              · intro k v h
                show lookupD ((hash (64 :: rest),
                  (if remainder_is_junk rest then ID_JUNK else ID_INSTANCE)
                    + 8 * (st.last_id + 1)) :: st.sym_id) k = some v
                rw [lookupD_cons_ne _ _ (hkne k v h)]
                exact h
              · show st.last_id ≤ st.last_id + 1
                omega
              · show 8 * (st.last_id + 1) ≤
                  (if remainder_is_junk rest then ID_JUNK else ID_INSTANCE)
                    + 8 * (st.last_id + 1)
                omega
          · by_cases hcond : rest ≠ [] ∧ (c :: rest).getLast? = some 61
            · obtain ⟨hr, hlast⟩ := hcond
              have hlen' : ((c :: rest).dropLast).length < fuel := by
                rw [List.length_dropLast]
                simp only [List.length_cons] at hlen ⊢
                omega
              rcases hres : internAux hash fuel ((c :: rest).dropLast) st
                with ⟨bid, st2⟩
              obtain ⟨m1, l1, -⟩ := ih ((c :: rest).dropLast) st hlen'
              rw [hres] at m1 l1
              have l2 : st.last_id ≤ st2.last_id := l1
              by_cases hattr : is_attrset_id bid = true
              · have hjunk : remainder_is_junk (c :: rest) = true :=
                  junk_of_trailing_eq hlast
                rw [show internAux hash (fuel + 1) (c :: rest) st =
                  newIdRegister hash (c :: rest) ID_JUNK st2 from by
                    rw [internAux_attr_step hash fuel c rest st bid st2 hlk
                      hc36 hc64 hr hlast hres, if_pos hattr, if_pos hjunk]]
                refine ⟨?_, ?_, Or.inr (Or.inr ?_)⟩
                · intro k v h
                  show lookupD ((hash (c :: rest),
                    ID_JUNK + 8 * (st2.last_id + 1)) :: st2.sym_id) k =
                    some v
                  rw [lookupD_cons_ne _ _ (hkne k v h)]
                  exact m1 k v h
                · show st.last_id ≤ st2.last_id + 1
                  omega
                · show 8 * (st.last_id + 1) ≤
                    ID_JUNK + 8 * (st2.last_id + 1)
                  omega
              · have hattr' : is_attrset_id bid = false := by
                  cases ha : is_attrset_id bid
                  · rfl
                  · exact absurd ha hattr
                rw [show internAux hash (fuel + 1) (c :: rest) st =
                  registerSym hash (c :: rest) (rb_id_attrset bid) st2 from by
                    rw [internAux_attr_step hash fuel c rest st bid st2 hlk
                      hc36 hc64 hr hlast hres,
                      if_neg (by simp [hattr'] : ¬(is_attrset_id bid = true))]]
                refine ⟨?_, ?_, Or.inr (Or.inl (rb_id_attrset_mod bid))⟩
                · intro k v h
                  show lookupD ((hash (c :: rest), rb_id_attrset bid) ::
                    st2.sym_id) k = some v
                  rw [lookupD_cons_ne _ _ (hkne k v h)]
                  exact m1 k v h
                · show st.last_id ≤ st2.last_id
                  exact l1
            · rw [show internAux hash (fuel + 1) (c :: rest) st =
                newIdRegister hash (c :: rest)
                  (if remainder_is_junk (c :: rest) then ID_JUNK
                   else if isupperc c then ID_CONST else ID_LOCAL) st from by
                    simp [internAux, hlk, hc36, hc64, hcond]]
              refine ⟨?_, ?_, Or.inr (Or.inr ?_)⟩
              · intro k v h
                show lookupD ((hash (c :: rest),
                  (if remainder_is_junk (c :: rest) then ID_JUNK
                   else if isupperc c then ID_CONST else ID_LOCAL)
                    + 8 * (st.last_id + 1)) :: st.sym_id) k = some v
                rw [lookupD_cons_ne _ _ (hkne k v h)]
                exact h
              · show st.last_id ≤ st.last_id + 1
                omega
              · show 8 * (st.last_id + 1) ≤
                  (if remainder_is_junk (c :: rest) then ID_JUNK
                   else if isupperc c then ID_CONST else ID_LOCAL)
                    + 8 * (st.last_id + 1)
                omega

/-- The invariant-free facts lifted to a sequence of interns. -/
theorem internMany_basic (hash : Text → Nat) :
    ∀ ts st,
      (∀ k v, lookupD st.sym_id k = some v →
        lookupD (internMany hash ts st).sym_id k = some v)
      ∧ st.last_id ≤ (internMany hash ts st).last_id := by
  intro ts
  induction ts with
  | nil =>
    intro st
    exact ⟨fun k v h => h, le_refl _⟩
  | cons t ts ih =>
    intro st
    obtain ⟨m1, l1, -⟩ := internAux_basic hash (t.length + 1) t st (by omega)
    obtain ⟨m2, l2⟩ := ih (rb_intern_str hash t st).2
    exact ⟨fun k v h => m2 k v (m1 k v h), le_trans l1 l2⟩

/-- C8 counterexample to the claim as stated: with the spec-conforming
reserved tokens 321 for `"+@"` and 324 for `"<=>"` (both nonzero and
strictly below the 1000 floor), the dynamic intern of `"+@="` — a text
that is not an operator name — reaches the attribute-setter branch,
reuses the sequence bits of the reserved base id 321, and returns
`rb_id_attrset 321 = 324`: the reserved id of `"<=>"`, whose bootstrap
record it shadows in the id dictionary. -/
theorem C8_counterexample :
    OpTblOK opClashTbl
    ∧ (324, [60, 61, 62]) ∈ opClashTbl
    ∧ (∀ p ∈ opClashTbl, p.2 ≠ [43, 64, 61])
    ∧ lookupD (Init_PreSymbol encodeText opClashTbl).id_str 324 =
        some ⟨[60, 61, 62], 324⟩
    ∧ (rb_intern_str encodeText [43, 64, 61]
        (Init_PreSymbol encodeText opClashTbl)).1 = 324
    ∧ lookupD (rb_intern_str encodeText [43, 64, 61]
        (Init_PreSymbol encodeText opClashTbl)).2.id_str 324 =
        some ⟨[43, 64, 61], 324⟩ := by
  decide

/-- C8 (amended): with an injective hash and a spec-conforming operator
table (nonzero reserved ids strictly below the 1000 floor, distinct
names), after bootstrap and any sequence of dynamic interns: interning a
bootstrap token's name still returns its reserved id (content-hash
bindings are never overwritten); the dynamic counter stays at its floor of
1000 or above, strictly above every reserved id; and a dynamic intern of a
previously unseen text either returns an attrset-tagged id — the only way
a reserved id can be returned, as the counterexample shows — or a freshly
sequenced id of at least `8 * 1001`, which never collides with any
reserved id. -/
theorem C8_reserved_floor (hash : Text → Nat)
    (hinj : Function.Injective hash) (tbl : List (Nat × Text))
    (hok : OpTblOK tbl) (ts : List Text) (tok : Nat) (name : Text)
    (hmem : (tok, name) ∈ tbl) :
    lookupD (internMany hash ts (Init_PreSymbol hash tbl)).sym_id
        (hash name) = some tok
    ∧ (rb_intern_str hash name
        (internMany hash ts (Init_PreSymbol hash tbl))).1 = tok
    ∧ tok < 1000
    ∧ 1000 ≤ (internMany hash ts (Init_PreSymbol hash tbl)).last_id
    ∧ (∀ s, lookupD (internMany hash ts (Init_PreSymbol hash tbl)).sym_id
          (hash s) = none →
        (rb_intern_str hash s
            (internMany hash ts (Init_PreSymbol hash tbl))).1 % 8 = 4
        ∨ ((rb_intern_str hash s
              (internMany hash ts (Init_PreSymbol hash tbl))).1 ≠ tok
            ∧ 8 * 1001 ≤ (rb_intern_str hash s
              (internMany hash ts (Init_PreSymbol hash tbl))).1)) := by
  have h0 : lookupD (Init_PreSymbol hash tbl).sym_id (hash name) =
      some tok :=
    op_tbl_register_lookup hash hinj tbl _ hok.2 tok name hmem
  have hlast0 : (Init_PreSymbol hash tbl).last_id = 1000 :=
    op_tbl_register_last hash tbl _
  obtain ⟨hmono, hlast⟩ := internMany_basic hash ts (Init_PreSymbol hash tbl)
  have h1 := hmono _ _ h0
  have htok : tok < 1000 := (hok.1 _ hmem).2
  have hfloor : 1000 ≤ (internMany hash ts (Init_PreSymbol hash tbl)).last_id
    := by omega
  refine ⟨h1, ?_, htok, hfloor, ?_⟩
  · exact congrArg Prod.fst (internAux_hit hash name.length name _ tok h1)
  · intro s hs
    obtain ⟨-, -, hchar⟩ := internAux_basic hash (s.length + 1) s
      (internMany hash ts (Init_PreSymbol hash tbl)) (by omega)
    rcases hchar with hc | hc | hc
    · rw [hs] at hc
      exact Option.noConfusion hc
    · exact Or.inl hc
    · have hc' : 8 * ((internMany hash ts (Init_PreSymbol hash tbl)).last_id
          + 1) ≤ (rb_intern_str hash s
            (internMany hash ts (Init_PreSymbol hash tbl))).1 := hc
      refine Or.inr ⟨?_, ?_⟩
      · intro he
        rw [he] at hc'
        omega
      · omega

theorem C8_witness :
    OpTblOK opDemoTbl
    ∧ (331, [43]) ∈ opDemoTbl
    ∧ lookupD (internMany encodeText [[102, 111, 111]]
        (Init_PreSymbol encodeText opDemoTbl)).sym_id (encodeText [43]) =
        some 331 :=
  ⟨by decide, by decide,
   (C8_reserved_floor encodeText encodeText_injective opDemoTbl (by decide)
     [[102, 111, 111]] 331 [43] (by decide)).1⟩

end MacRubySymbol
